import Mathlib

/-
Verification of cemconv (src/cemconv/src/main.rs): the text-mesh (Wavefront OBJ)
to binary CEM v2 importer `obj_to_cem` and the exporter `cem2_to_obj`.

Modelling conventions:
- Source floats (f32/f64) are modelled as rationals; no claim depends on
  floating-point rounding, only on which components are moved where.
- Rust functions whose only failure mode is a panic (index out of bounds on a
  Vec or slice) are modelled as Option-returning functions where `none` stands
  for the panic: the Rust signatures (`fn obj_to_cem(&Object) -> V2`,
  `fn cem2_to_obj(V2) -> String`) have no error channel such as Result, so
  `none` never denotes a checked, typed failure.
- The exporter builds a String line by line via writeln!; we model the output
  as a list of structured lines, one constructor argument per format-string
  hole, in emission order.
-/

namespace Cemconv

abbrev Scalar := ℚ

namespace obj

/-- wavefront_obj crate `Vertex` (used for both positions and normals):
three f64 coordinates x, y, z. -/
structure Vertex where
  x : Scalar
  y : Scalar
  z : Scalar
deriving DecidableEq, Repr

/-- wavefront_obj crate `TVertex`: a texture coordinate with components u, v, w. -/
structure TVertex where
  u : Scalar
  v : Scalar
  w : Scalar
deriving DecidableEq, Repr

/-- wavefront_obj crate `VTNIndex = (VertexIndex, Option TextureIndex, Option NormalIndex)`.
Rust tuple fields .0/.1/.2 become v0/v1/v2. -/
structure VTNIndex where
  v0 : ℕ
  v1 : Option ℕ
  v2 : Option ℕ
deriving DecidableEq, Repr

/-- wavefront_obj crate `Primitive`: purely geometric primitive of a shape. -/
inductive Primitive where
  | Triangle (a b c : VTNIndex)
  | Line (a b : VTNIndex)
  | Point (a : VTNIndex)
deriving DecidableEq, Repr

/-- wavefront_obj crate `Shape`: the converter reads only `shape.primitive`. -/
structure Shape where
  primitive : Primitive
deriving DecidableEq, Repr

/-- wavefront_obj crate `Geometry`: the converter reads only `geometry.shapes`. -/
structure Geometry where
  shapes : List Shape
deriving DecidableEq, Repr

/-- wavefront_obj crate `Object`: attribute lists and geometry, exactly the
fields `obj_to_cem` reads (vertices, tex_vertices, normals, geometry). -/
structure Object where
  vertices : List Vertex
  tex_vertices : List TVertex
  normals : List Vertex
  geometry : List Geometry
deriving DecidableEq, Repr

end obj

/-- cem crate `Pos3` tuple struct: fields .0/.1/.2 become p0/p1/p2. -/
structure Pos3 where
  p0 : Scalar
  p1 : Scalar
  p2 : Scalar
deriving DecidableEq, Repr

/-- cem crate `Pos2` tuple struct: fields .0/.1 become p0/p1. -/
structure Pos2 where
  p0 : Scalar
  p1 : Scalar
deriving DecidableEq, Repr

namespace v2

/-- cem crate `v2::Vertex`: one unified vertex (position, texture, normal). -/
structure Vertex where
  position : Pos3
  texture : Pos2
  normal : Pos3
deriving DecidableEq, Repr

/-- cem crate `v2::TriangleSelection`: an (offset, len) range into a LOD
level's triangle list. u32 fields modelled as naturals. -/
structure TriangleSelection where
  offset : ℕ
  len : ℕ
deriving DecidableEq, Repr

/-- cem crate `v2::Material`, exactly the fields `obj_to_cem` constructs and
`cem2_to_obj` destructures. -/
structure Material where
  name : String
  texture : ℕ
  triangles : List TriangleSelection
  vertex_offset : ℕ
  vertex_count : ℕ
  texture_name : String
deriving DecidableEq, Repr

/-- Modelled from the spec: cem crate `v2::Frame` is repository code not under
src/. Per the spec a frame holds the full unified vertex list plus auxiliary
per-frame data; the importer calls `Frame::from_vertices(vertices, vec![], center)`. -/
structure Frame where
  vertices : List Vertex
  extra : List Pos3
  center : Pos3
deriving DecidableEq, Repr

/-- Modelled from the spec: constructor used at main.rs:200,
`v2::Frame::from_vertices(vertices, vec![], center)`. -/
def Frame.from_vertices (vertices : List Vertex) (extra : List Pos3) (center : Pos3) : Frame :=
  ⟨vertices, extra, center⟩

end v2

/-- A triangle of the binary model: three unified-vertex indices, pushed by the
importer as a `(u32, u32, u32)` tuple. Rust fields .0/.1/.2 become t0/t1/t2. -/
structure Tri where
  t0 : ℕ
  t1 : ℕ
  t2 : ℕ
deriving DecidableEq, Repr

/-- cem crate `V2` model, exactly the fields main.rs constructs and reads.
Tag points are never inspected by the converter; the spec calls them named
attachment points, so they are modelled as strings. -/
structure V2 where
  center : Pos3
  materials : List v2.Material
  lod_levels : List (List Tri)
  tag_points : List String
  frames : List v2.Frame
deriving DecidableEq, Repr

/-- Modelled from the spec: `cem::collider::CenterBuilder` is repository code
not under src/. The spec recommends midpoint-of-axis-aligned-bounding-box and
leaves the zero-update result unspecified (origin chosen here); no claim
depends on the numeric value of the center. The accumulator state is the
running bounds, absent before the first update. -/
structure CenterBuilder where
  bounds : Option (Pos3 × Pos3)
deriving DecidableEq, Repr

/-- Modelled from the spec: `CenterBuilder::begin()`. -/
def CenterBuilder.begin : CenterBuilder := ⟨none⟩

/-- Modelled from the spec: `CenterBuilder::update(position)` extends the
running axis-aligned bounds. -/
def CenterBuilder.update (c : CenterBuilder) (p : Pos3) : CenterBuilder :=
  match c.bounds with
  | none => ⟨some (p, p)⟩
  | some (lo, hi) =>
      ⟨some (⟨min lo.p0 p.p0, min lo.p1 p.p1, min lo.p2 p.p2⟩,
             ⟨max hi.p0 p.p0, max hi.p1 p.p1, max hi.p2 p.p2⟩)⟩

/-- Modelled from the spec: `CenterBuilder::build()` returns the bounds
midpoint, or the origin when no position was ever supplied. -/
def CenterBuilder.build (c : CenterBuilder) : Pos3 :=
  match c.bounds with
  | none => ⟨0, 0, 0⟩
  | some (lo, hi) =>
      ⟨(lo.p0 + hi.p0) / 2, (lo.p1 + hi.p1) / 2, (lo.p2 + hi.p2) / 2⟩

/-- State captured mutably by the `resolve_index` closure in `obj_to_cem`
(main.rs:128-150): the `vertex_associations` HashMap (modelled as an
insertion-ordered association list; keys are inserted at most once, so
HashMap lookup agrees with first-match lookup) and the unified `vertices` list. -/
structure ImportState where
  vertex_associations : List (obj.VTNIndex × ℕ)
  vertices : List v2.Vertex
deriving DecidableEq, Repr

/-- First-match lookup in the association list modelling the HashMap. -/
def assocLookup : List (obj.VTNIndex × ℕ) → obj.VTNIndex → Option ℕ
  | [], _ => none
  | (k, idx) :: rest, v => if k = v then some idx else assocLookup rest v

/-- The `resolve_index` closure (main.rs:134-150). `vertex_associations.entry(v)
.or_insert_with(..)`: on a hit return the stored index; on a miss the closure
runs — it reads `i.vertices[v.0]`, maps the optional texture/normal indices
through `i.tex_vertices` / `i.normals` with defaults `TVertex(0,0,0)` /
`Vertex(1,0,0)` when absent, pushes the unified vertex with Y and Z swapped for
position and normal, and stores index = previous vertices.len(). Any of the
three Vec indexings panics when out of range (`none` here). -/
def resolve_index (o : obj.Object) (s : ImportState) (v : obj.VTNIndex) :
    Option (ℕ × ImportState) :=
  match assocLookup s.vertex_associations v with
  | some index => some (index, s)
  | none =>
    let index := s.vertices.length
    match o.vertices[v.v0]? with
    | none => none
    | some position =>
      match (match v.v1 with
             | none => some (obj.TVertex.mk 0 0 0)
             | some tidx => o.tex_vertices[tidx]?) with
      | none => none
      | some texture =>
        match (match v.v2 with
               | none => some (obj.Vertex.mk 1 0 0)
               | some nidx => o.normals[nidx]?) with
        | none => none
        | some normal =>
          some (index,
            { vertex_associations := s.vertex_associations ++ [(v, index)],
              vertices := s.vertices ++
                [{ position := ⟨position.x, position.z, position.y⟩,
                   texture := ⟨texture.u, texture.v⟩,
                   normal := ⟨normal.x, normal.z, normal.y⟩ }] })

/-- The primitive loop of `obj_to_cem` (main.rs:152-165): for each primitive in
encounter order, a Triangle resolves its three corners in order and appends one
index triple to `triangles`; lines and points are skipped. -/
def importPrimitives (o : obj.Object) :
    List obj.Primitive → List Tri → ImportState → Option (List Tri × ImportState)
  | [], tris, s => some (tris, s)
  | p :: rest, tris, s =>
    match p with
    | .Triangle a b c =>
      match resolve_index o s a with
      | none => none
      | some (i0, s1) =>
        match resolve_index o s1 b with
        | none => none
        | some (i1, s2) =>
          match resolve_index o s2 c with
          | none => none
          | some (i2, s3) => importPrimitives o rest (tris ++ [⟨i0, i1, i2⟩]) s3
    | _ => importPrimitives o rest tris s

/-- The flattened primitive sequence of an object, in encounter order:
`for geometry in &i.geometry { for primitive in geometry.shapes.iter().map(..) }`. -/
def primitivesOf (o : obj.Object) : List obj.Primitive :=
  o.geometry.flatMap (fun g => g.shapes.map (fun sh => sh.primitive))

/-- `obj_to_cem` (main.rs:127-203). After the primitive loop it evaluates
`triangles[0]` — a panic (`none`) when no triangle primitive was present — then
feeds every unified vertex position to the CenterBuilder and assembles the V2
model: one material (empty names, texture 0, one full-range triangle selection,
full vertex range), one LOD level, no tag points, one frame. -/
def obj_to_cem (o : obj.Object) : Option V2 :=
  match importPrimitives o (primitivesOf o) [] ⟨[], []⟩ with
  | none => none
  | some (triangles, s) =>
    match triangles[0]? with
    | none => none
    | some _first_triangle =>
      let center :=
        (s.vertices.foldl (fun c v => c.update v.position) CenterBuilder.begin).build
      some
        { center := center,
          materials := [{ name := "",
                          texture := 0,
                          triangles := [{ offset := 0, len := triangles.length }],
                          vertex_offset := 0,
                          vertex_count := s.vertices.length,
                          texture_name := "" }],
          lod_levels := [triangles],
          tag_points := [],
          frames := [v2.Frame.from_vertices s.vertices [] center] }

/-- One output line of `cem2_to_obj`, one constructor argument per hole of the
corresponding writeln! format string, in order. A face line carries all nine
indices exactly as written (`f a/a/a b/b/b c/c/c`). -/
inductive ObjLine where
  | v (a b c : Scalar)
  | vn (a b c : Scalar)
  | vt (a b : Scalar)
  | comment (name : String) (texture : ℕ) (texture_name : String)
  | f (a1 a2 a3 b1 b2 b3 c1 c2 c3 : ℕ)
deriving DecidableEq, Repr

/-- The inner face loop of `cem2_to_obj` (main.rs:226-237) for one material:
for each index in 0..len (passed here as the list `ks = List.range len`),
read `triangle_data[index + offset]` (panic — `none` — when out of range) and
emit `f i0/i0/i0 i1/i1/i1 i2/i2/i2` with each component
`vertex_offset + triangle.component + 1`. -/
def faceLoop (triangle_data : List Tri) (vertex_offset : ℕ) (off : ℕ) :
    List ℕ → Option (List ObjLine)
  | [] => some []
  | k :: rest =>
    match triangle_data[k + off]? with
    | none => none
    | some t =>
      match faceLoop triangle_data vertex_offset off rest with
      | none => none
      | some ls =>
        some (ObjLine.f (vertex_offset + t.t0 + 1) (vertex_offset + t.t0 + 1)
                (vertex_offset + t.t0 + 1) (vertex_offset + t.t1 + 1)
                (vertex_offset + t.t1 + 1) (vertex_offset + t.t1 + 1)
                (vertex_offset + t.t2 + 1) (vertex_offset + t.t2 + 1)
                (vertex_offset + t.t2 + 1) :: ls)

/-- The material loop of `cem2_to_obj` (main.rs:221-238): for each material in
list order, read `triangles[0]` (panic — `none` — on an empty selection list),
emit the comment line, then the face lines of that first selection only. -/
def materialsLoop (triangle_data : List Tri) : List v2.Material → Option (List ObjLine)
  | [] => some []
  | m :: rest =>
    match m.triangles[0]? with
    | none => none
    | some triangle_slice =>
      match faceLoop triangle_data m.vertex_offset triangle_slice.offset
              (List.range triangle_slice.len) with
      | none => none
      | some faces =>
        match materialsLoop triangle_data rest with
        | none => none
        | some ls =>
          some (ObjLine.comment m.name m.texture m.texture_name :: faces ++ ls)

/-- The three attribute lines emitted for one unified vertex (main.rs:213-219):
position and normal with components written in .0/.2/.1 order (the inverse Y/Z
swap), texture with .0/.1. -/
def vertexLines (v : v2.Vertex) : List ObjLine :=
  [ObjLine.v v.position.p0 v.position.p2 v.position.p1,
   ObjLine.vn v.normal.p0 v.normal.p2 v.normal.p1,
   ObjLine.vt v.texture.p0 v.texture.p1]

/-- `cem2_to_obj` (main.rs:205-241): select `lod_levels[0]` and `frames[0]`
(each a panic — `none` — when absent), emit the three attribute lines per
frame vertex in list order, then the material sections. -/
def cem2_to_obj (cem : V2) : Option (List ObjLine) :=
  match cem.lod_levels[0]? with
  | none => none
  | some triangle_data =>
    match cem.frames[0]? with
    | none => none
    | some frame =>
      match materialsLoop triangle_data cem.materials with
      | none => none
      | some faceSection => some (frame.vertices.flatMap vertexLines ++ faceSection)

/-- Concrete input used to exhibit the zero-triangle behaviour: one position,
one Line primitive, no triangle primitives. -/
def lineOnlyObject : obj.Object :=
  { vertices := [⟨0, 0, 0⟩],
    tex_vertices := [],
    normals := [],
    geometry := [⟨[⟨obj.Primitive.Line ⟨0, none, none⟩ ⟨0, none, none⟩⟩]⟩] }

/-- Concrete input with an out-of-range vertex reference: the position list is
empty, yet the sole triangle references position index 0. -/
def badIndexObject : obj.Object :=
  { vertices := [],
    tex_vertices := [],
    normals := [],
    geometry :=
      [⟨[⟨obj.Primitive.Triangle ⟨0, none, none⟩ ⟨0, none, none⟩ ⟨0, none, none⟩⟩]⟩] }

/-- Concrete binary model whose sole triangle references unified vertex
indices 5, 6, 7 although the frame holds a single vertex. -/
def danglingIndexModel : V2 :=
  { center := ⟨0, 0, 0⟩,
    materials := [{ name := "",
                    texture := 0,
                    triangles := [⟨0, 1⟩],
                    vertex_offset := 0,
                    vertex_count := 1,
                    texture_name := "" }],
    lod_levels := [[⟨5, 6, 7⟩]],
    tag_points := [],
    frames := [⟨[{ position := ⟨1, 2, 3⟩, texture := ⟨0, 0⟩, normal := ⟨1, 0, 0⟩ }],
                [], ⟨0, 0, 0⟩⟩] }

/-- One-triangle object with source position (x, y, z) and source normal
(nx, ny, nz), all three corners sharing the same reference tuple. -/
def singleTriangleObject (x y z nx ny nz : Scalar) : obj.Object :=
  { vertices := [⟨x, y, z⟩],
    tex_vertices := [],
    normals := [⟨nx, ny, nz⟩],
    geometry :=
      [⟨[⟨obj.Primitive.Triangle ⟨0, none, some 0⟩ ⟨0, none, some 0⟩ ⟨0, none, some 0⟩⟩]⟩] }


/-- The corner references a primitive contributes to `resolve_index`, in
resolution order: a triangle resolves v0, v1, v2; lines and points resolve
nothing. -/
def triCorners : obj.Primitive → List obj.VTNIndex
  | .Triangle a b c => [a, b, c]
  | _ => []

/-- All triangle corners of an object, in the order `obj_to_cem` resolves them. -/
def corners (o : obj.Object) : List obj.VTNIndex :=
  (primitivesOf o).flatMap triCorners

/-- Sequential resolution of a list of corner references: exactly the sequence
of `resolve_index` calls the primitive loop performs, recording the resulting
unified indices. -/
def resolveList (o : obj.Object) :
    List obj.VTNIndex → ImportState → Option (List ℕ × ImportState)
  | [], s => some ([], s)
  | v :: rest, s =>
    match resolve_index o s v with
    | none => none
    | some (idx, s1) =>
      match resolveList o rest s1 with
      | none => none
      | some (idxs, s2) => some (idx :: idxs, s2)

/-- Well-formedness of the import state: the association values are exactly
0, 1, ..., vertices.length - 1 in insertion order, and the stored keys are
pairwise distinct. Holds for the empty state and is preserved by
`resolve_index`. -/
def WF (s : ImportState) : Prop :=
  s.vertex_associations.map Prod.snd = List.range s.vertices.length ∧
  (s.vertex_associations.map Prod.fst).Nodup




/-- Specification of the exporter's face section, written from the claim's
wording rather than the source (to be proved equal to what `materialsLoop`
produces): for each material in list order, one comment line, then one face
line per triangle of the material's FIRST triangle-range selection only, each
of the three indices equal to vertex-range offset + unified index + 1 and
repeated three times in the a/a/a slash form. -/
def faceSectionSpec (td : List Tri) : List v2.Material → List ObjLine
  | [] => []
  | m :: rest =>
    ObjLine.comment m.name m.texture m.texture_name ::
    ((List.range (m.triangles.headD ⟨0, 0⟩).len).map (fun k =>
      ObjLine.f
        (m.vertex_offset + (td.getD (k + (m.triangles.headD ⟨0, 0⟩).offset) ⟨0, 0, 0⟩).t0 + 1)
        (m.vertex_offset + (td.getD (k + (m.triangles.headD ⟨0, 0⟩).offset) ⟨0, 0, 0⟩).t0 + 1)
        (m.vertex_offset + (td.getD (k + (m.triangles.headD ⟨0, 0⟩).offset) ⟨0, 0, 0⟩).t0 + 1)
        (m.vertex_offset + (td.getD (k + (m.triangles.headD ⟨0, 0⟩).offset) ⟨0, 0, 0⟩).t1 + 1)
        (m.vertex_offset + (td.getD (k + (m.triangles.headD ⟨0, 0⟩).offset) ⟨0, 0, 0⟩).t1 + 1)
        (m.vertex_offset + (td.getD (k + (m.triangles.headD ⟨0, 0⟩).offset) ⟨0, 0, 0⟩).t1 + 1)
        (m.vertex_offset + (td.getD (k + (m.triangles.headD ⟨0, 0⟩).offset) ⟨0, 0, 0⟩).t2 + 1)
        (m.vertex_offset + (td.getD (k + (m.triangles.headD ⟨0, 0⟩).offset) ⟨0, 0, 0⟩).t2 + 1)
        (m.vertex_offset + (td.getD (k + (m.triangles.headD ⟨0, 0⟩).offset) ⟨0, 0, 0⟩).t2 + 1)) ++
      faceSectionSpec td rest)

/-- Concrete LOD triangle list for the C5 witness model. -/
def c5lod : List Tri := [⟨0, 1, 2⟩]

/-- Concrete frame for the C5 witness model: three unified vertices. -/
def c5frame : v2.Frame :=
  ⟨[⟨⟨0, 0, 0⟩, ⟨0, 0⟩, ⟨1, 0, 0⟩⟩,
    ⟨⟨1, 0, 0⟩, ⟨0, 0⟩, ⟨1, 0, 0⟩⟩,
    ⟨⟨0, 0, 1⟩, ⟨0, 0⟩, ⟨1, 0, 0⟩⟩], [], ⟨0, 0, 0⟩⟩

/-- C5 witness model: one material carrying TWO triangle-range selections (the
second must not be exported). -/
def c5model : V2 :=
  { center := ⟨0, 0, 0⟩,
    materials := [{ name := "m", texture := 2, triangles := [⟨0, 1⟩, ⟨0, 1⟩],
                    vertex_offset := 0, vertex_count := 3, texture_name := "t" }],
    lod_levels := [c5lod],
    tag_points := [],
    frames := [c5frame] }

/-- C9 witness base model: one LOD level, one frame, one material. -/
def c9base : V2 :=
  { center := ⟨0, 0, 0⟩,
    materials := [{ name := "", texture := 0, triangles := [⟨0, 1⟩],
                    vertex_offset := 0, vertex_count := 2, texture_name := "" }],
    lod_levels := [[⟨0, 1, 1⟩]],
    tag_points := [],
    frames := [⟨[⟨⟨4, 5, 6⟩, ⟨7, 8⟩, ⟨1, 0, 0⟩⟩,
                 ⟨⟨9, 9, 9⟩, ⟨0, 0⟩, ⟨0, 1, 0⟩⟩], [], ⟨0, 0, 0⟩⟩] }

/-- C9 witness variant: same materials, same first LOD level and first frame
as `c9base`, but an extra LOD level, an extra frame, a different center and a
tag point — none of which the exporter may read. -/
def c9variant : V2 :=
  { center := ⟨3, 3, 3⟩,
    materials := [{ name := "", texture := 0, triangles := [⟨0, 1⟩],
                    vertex_offset := 0, vertex_count := 2, texture_name := "" }],
    lod_levels := [[⟨0, 1, 1⟩], [⟨9, 9, 9⟩]],
    tag_points := ["extra"],
    frames := [⟨[⟨⟨4, 5, 6⟩, ⟨7, 8⟩, ⟨1, 0, 0⟩⟩,
                 ⟨⟨9, 9, 9⟩, ⟨0, 0⟩, ⟨0, 1, 0⟩⟩], [], ⟨0, 0, 0⟩⟩,
               ⟨[⟨⟨1, 1, 1⟩, ⟨1, 1⟩, ⟨1, 1, 1⟩⟩], [], ⟨1, 1, 1⟩⟩] }

end Cemconv

namespace Cemconv

/-- C1: a text-mesh object with zero triangle primitives (here: one line
primitive only) does not reach any checked failure path: `obj_to_cem` has
return type `V2` with no error channel, and evaluating `triangles[0]` on the
empty triangle list is an out-of-bounds panic, modelled as `none`. The claimed
input-error kind does not exist in the code; the failure is a crash. -/
theorem c1_zero_triangles_panics : obj_to_cem lineOnlyObject = none := rfl

/-- C6: an out-of-range vertex-reference index makes `i.vertices[v.0]` panic
inside the `resolve_index` closure (modelled as `none`); no typed input-error
is signaled anywhere — the importer's signature has no error channel. -/
theorem c6_out_of_range_index_panics : obj_to_cem badIndexObject = none := rfl

/-- C7: the exporter never compares a triangle's unified vertex indices with
the frame's vertex list: on a model whose sole triangle references vertices
5, 6, 7 while the frame holds one vertex, it succeeds and silently emits the
invalid face line `f 6/6/6 7/7/7 8/8/8` (only one `v` line precedes it),
rather than surfacing any input-error. -/
theorem c7_dangling_reference_silently_exported :
    cem2_to_obj danglingIndexModel =
      some [ObjLine.v 1 3 2, ObjLine.vn 1 0 0, ObjLine.vt 0 0,
            ObjLine.comment "" 0 "",
            ObjLine.f 6 6 6 7 7 7 8 8 8] := rfl

/-- C3: importing then exporting a single triangle whose source position is
(x, y, z) and source normal (nx, ny, nz) yields the exported position line
`v x y z` and normal line `vn nx ny nz`: the importer's Y/Z swap composed with
the exporter's inverse Y/Z swap is the identity on positions and normals. -/
theorem c3_axis_swap_round_trip (x y z nx ny nz : Scalar) :
    (obj_to_cem (singleTriangleObject x y z nx ny nz)).bind cem2_to_obj =
      some [ObjLine.v x y z, ObjLine.vn nx ny nz, ObjLine.vt 0 0,
            ObjLine.comment "" 0 "",
            ObjLine.f 1 1 1 1 1 1 1 1 1] := rfl

end Cemconv

namespace Cemconv

/-- C4: whenever the importer succeeds, the produced model has exactly one
material with empty name and texture name, texture slot 0, a single
triangle-range selection (offset 0, length = triangle count of the single LOD
level), vertex range offset 0 with count = length of the single frame's
unified vertex list; exactly one LOD level; exactly one frame; no tag points. -/
theorem c4_imported_model_shape (o : obj.Object) (m : V2)
    (h : obj_to_cem o = some m) :
    m.tag_points = [] ∧
    ∃ tris fr,
      m.lod_levels = [tris] ∧
      m.frames = [fr] ∧
      fr.extra = [] ∧
      m.materials = [{ name := "",
                       texture := 0,
                       triangles := [{ offset := 0, len := tris.length }],
                       vertex_offset := 0,
                       vertex_count := fr.vertices.length,
                       texture_name := "" }] := by
  unfold obj_to_cem at h
  split at h
  · exact absurd h (by simp)
  · next triangles s heq =>
    split at h
    · exact absurd h (by simp)
    · next t ht =>
      injection h with h
      subst h
      exact ⟨rfl, triangles, _, rfl, rfl, rfl, rfl⟩

/-- Closed witness for C4: instantiates the theorem at the one-triangle object
of the axis-swap example. -/
theorem c4_witness :
    ∃ m, obj_to_cem (singleTriangleObject 0 1 2 3 4 5) = some m ∧
      (m.tag_points = [] ∧
       ∃ tris fr,
         m.lod_levels = [tris] ∧
         m.frames = [fr] ∧
         fr.extra = [] ∧
         m.materials = [{ name := "",
                          texture := 0,
                          triangles := [{ offset := 0, len := tris.length }],
                          vertex_offset := 0,
                          vertex_count := fr.vertices.length,
                          texture_name := "" }]) :=
  ⟨_, rfl, c4_imported_model_shape (singleTriangleObject 0 1 2 3 4 5) _ rfl⟩

/-- C8: when `resolve_index` inserts a new unified vertex (the reference tuple
was not yet associated), exactly one vertex is appended; if the texture index
was omitted its texture coordinate is (0, 0), and if the normal index was
omitted its normal is (1, 0, 0) (the axis swap fixes this default since its
Y and Z components are both 0). -/
theorem c8_default_attributes (o : obj.Object) (s : ImportState)
    (v : obj.VTNIndex) (idx : ℕ) (s' : ImportState)
    (hnew : assocLookup s.vertex_associations v = none)
    (h : resolve_index o s v = some (idx, s')) :
    ∃ vert, s'.vertices = s.vertices ++ [vert] ∧
      (v.v1 = none → vert.texture = Pos2.mk 0 0) ∧
      (v.v2 = none → vert.normal = Pos3.mk 1 0 0) := by
  unfold resolve_index at h
  rw [hnew] at h
  simp only at h
  split at h
  · exact absurd h (by simp)
  · next position hpos =>
    split at h
    · exact absurd h (by simp)
    · next texture htex =>
      split at h
      · exact absurd h (by simp)
      · next normal hnorm =>
        injection h with h
        have hs : s' = _ := congrArg Prod.snd h.symm
        refine ⟨_, congrArg ImportState.vertices hs, ?_, ?_⟩
        · intro hv1
          rw [hv1] at htex
          injection htex with htex
          simp [← htex]
        · intro hv2
          rw [hv2] at hnorm
          injection hnorm with hnorm
          simp [← hnorm]

/-- Closed witness for C8: a fresh reference tuple omitting both texture and
normal indices receives texture (0, 0) and normal (1, 0, 0). -/
theorem c8_witness :
    assocLookup (ImportState.mk [] []).vertex_associations ⟨0, none, none⟩ = none ∧
    ∃ vert,
      (ImportState.mk [(⟨0, none, none⟩, 0)]
        [{ position := ⟨1, 3, 2⟩, texture := ⟨0, 0⟩, normal := ⟨1, 0, 0⟩ }]).vertices =
        (ImportState.mk [] []).vertices ++ [vert] ∧
      ((obj.VTNIndex.mk 0 none none).v1 = none → vert.texture = Pos2.mk 0 0) ∧
      ((obj.VTNIndex.mk 0 none none).v2 = none → vert.normal = Pos3.mk 1 0 0) :=
  ⟨rfl, c8_default_attributes
    { vertices := [⟨1, 2, 3⟩], tex_vertices := [], normals := [], geometry := [] }
    (ImportState.mk [] []) ⟨0, none, none⟩ 0 _ rfl rfl⟩

end Cemconv

namespace Cemconv

/-- Lookup distributes over append: the left list is consulted first. -/
theorem assocLookup_append (l1 l2 : List (obj.VTNIndex × ℕ)) (v : obj.VTNIndex) :
    assocLookup (l1 ++ l2) v =
      (assocLookup l1 v).rec (assocLookup l2 v) (fun i => some i) := by
  induction l1 with
  | nil => rfl
  | cons kv rest ih =>
    obtain ⟨k, i⟩ := kv
    by_cases h : k = v <;> simp [assocLookup, h, ih]

/-- A lookup misses exactly when the key is not among the stored keys. -/
theorem assocLookup_eq_none_iff (l : List (obj.VTNIndex × ℕ)) (v : obj.VTNIndex) :
    assocLookup l v = none ↔ v ∉ l.map Prod.fst := by
  induction l with
  | nil => simp [assocLookup]
  | cons kv rest ih =>
    obtain ⟨k, i⟩ := kv
    by_cases h : k = v
    · subst h
      simp [assocLookup]
    · simp only [assocLookup, if_neg h, List.map_cons, List.mem_cons, not_or]
      rw [ih]
      exact ⟨fun hni => ⟨fun hv => h hv.symm, hni⟩, fun hni => hni.2⟩

/-- A successful lookup returns one of the stored values. -/
theorem assocLookup_mem_values (l : List (obj.VTNIndex × ℕ)) (v : obj.VTNIndex)
    (i : ℕ) (h : assocLookup l v = some i) : i ∈ l.map Prod.snd := by
  induction l with
  | nil => simp [assocLookup] at h
  | cons kv rest ih =>
    obtain ⟨k, j⟩ := kv
    by_cases hk : k = v
    · simp [assocLookup, hk] at h
      simp [h]
    · simp only [assocLookup, if_neg hk] at h
      simp [ih h]

/-- When the stored values are pairwise distinct, two keys looking up to the
same value are equal. -/
theorem assocLookup_inj (l : List (obj.VTNIndex × ℕ)) (hnd : (l.map Prod.snd).Nodup)
    (k1 k2 : obj.VTNIndex) (i : ℕ)
    (h1 : assocLookup l k1 = some i) (h2 : assocLookup l k2 = some i) : k1 = k2 := by
  induction l with
  | nil => simp [assocLookup] at h1
  | cons kv rest ih =>
    obtain ⟨k, j⟩ := kv
    simp only [List.map_cons, List.nodup_cons] at hnd
    by_cases hk1 : k = k1 <;> by_cases hk2 : k = k2
    · rw [← hk1, ← hk2]
    · simp only [assocLookup, if_pos hk1] at h1
      simp only [assocLookup, if_neg hk2] at h2
      injection h1 with h1
      exact absurd (h1 ▸ assocLookup_mem_values rest k2 i h2) hnd.1
    · simp only [assocLookup, if_neg hk1] at h1
      simp only [assocLookup, if_pos hk2] at h2
      injection h2 with h2
      exact absurd (h2 ▸ assocLookup_mem_values rest k1 i h1) hnd.1
    · simp only [assocLookup, if_neg hk1] at h1
      simp only [assocLookup, if_neg hk2] at h2
      exact ih hnd.2 h1 h2

/-- Case analysis of a successful `resolve_index` call: either the tuple was
already associated (state unchanged), or it was fresh — the returned index is
the current vertex count, the association is appended, and exactly one unified
vertex is pushed. -/
theorem resolve_index_some_cases (o : obj.Object) (s : ImportState)
    (v : obj.VTNIndex) (idx : ℕ) (s' : ImportState)
    (h : resolve_index o s v = some (idx, s')) :
    (assocLookup s.vertex_associations v = some idx ∧ s' = s) ∨
    (assocLookup s.vertex_associations v = none ∧ idx = s.vertices.length ∧
     ∃ vert, s'.vertex_associations = s.vertex_associations ++ [(v, idx)] ∧
       s'.vertices = s.vertices ++ [vert]) := by
  unfold resolve_index at h
  split at h
  · next i hit =>
    rw [Option.some.injEq, Prod.mk.injEq] at h
    exact Or.inl ⟨h.1 ▸ hit, h.2.symm⟩
  · next hmiss =>
    simp only at h
    split at h
    · exact absurd h (by simp)
    · next position hpos =>
      split at h
      · exact absurd h (by simp)
      · next texture htex =>
        split at h
        · exact absurd h (by simp)
        · next normal hnorm =>
          rw [Option.some.injEq, Prod.mk.injEq] at h
          obtain ⟨h1, h2⟩ := h
          subst h2
          subst h1
          exact Or.inr ⟨hmiss, rfl, ⟨_, rfl, rfl⟩⟩

end Cemconv

namespace Cemconv

/-- A successful resolution leaves every existing association in place. -/
theorem resolve_index_extends (o : obj.Object) (s : ImportState)
    (v : obj.VTNIndex) (idx : ℕ) (s' : ImportState)
    (h : resolve_index o s v = some (idx, s')) :
    ∃ tail, s'.vertex_associations = s.vertex_associations ++ tail := by
  rcases resolve_index_some_cases o s v idx s' h with ⟨_, rfl⟩ | ⟨_, _, _, ha, _⟩
  · exact ⟨[], (List.append_nil _).symm⟩
  · exact ⟨_, ha⟩

/-- After a successful resolution the tuple is associated with the returned
index. -/
theorem resolve_index_lookup_self (o : obj.Object) (s : ImportState)
    (v : obj.VTNIndex) (idx : ℕ) (s' : ImportState)
    (h : resolve_index o s v = some (idx, s')) :
    assocLookup s'.vertex_associations v = some idx := by
  rcases resolve_index_some_cases o s v idx s' h with ⟨hit, rfl⟩ | ⟨hmiss, _, _, ha, _⟩
  · exact hit
  · rw [ha, assocLookup_append, hmiss]
    simp [assocLookup]

/-- The unified vertex list never shrinks. -/
theorem resolve_index_vertices_mono (o : obj.Object) (s : ImportState)
    (v : obj.VTNIndex) (idx : ℕ) (s' : ImportState)
    (h : resolve_index o s v = some (idx, s')) :
    s.vertices.length ≤ s'.vertices.length := by
  rcases resolve_index_some_cases o s v idx s' h with ⟨_, rfl⟩ | ⟨_, _, _, _, hv⟩
  · exact le_refl _
  · rw [hv]; simp

/-- Well-formedness of the import state is preserved by resolution. -/
theorem resolve_index_WF (o : obj.Object) (s : ImportState)
    (v : obj.VTNIndex) (idx : ℕ) (s' : ImportState)
    (h : resolve_index o s v = some (idx, s')) (hwf : WF s) : WF s' := by
  rcases resolve_index_some_cases o s v idx s' h with ⟨_, rfl⟩ | ⟨hmiss, hidx, _, ha, hv⟩
  · exact hwf
  · obtain ⟨hr, hnd⟩ := hwf
    constructor
    · rw [ha, hv, List.map_append, hr, hidx]
      simp [List.range_succ]
    · rw [ha, List.map_append]
      rw [assocLookup_eq_none_iff] at hmiss
      simp [List.nodup_append, hnd, hmiss]

/-- A returned index is a valid position in the new unified vertex list. -/
theorem resolve_index_idx_lt (o : obj.Object) (s : ImportState)
    (v : obj.VTNIndex) (idx : ℕ) (s' : ImportState)
    (h : resolve_index o s v = some (idx, s')) (hwf : WF s) :
    idx < s'.vertices.length := by
  rcases resolve_index_some_cases o s v idx s' h with ⟨hit, rfl⟩ | ⟨_, hidx, _, _, hv⟩
  · have := assocLookup_mem_values _ _ _ hit
    rw [hwf.1, List.mem_range] at this
    exact this
  · rw [hidx, hv]
    simp

end Cemconv

namespace Cemconv

/-- Looking up through an extension hits the original binding first. -/
theorem assocLookup_append_some (l1 l2 : List (obj.VTNIndex × ℕ))
    (k : obj.VTNIndex) (i : ℕ) (h : assocLookup l1 k = some i) :
    assocLookup (l1 ++ l2) k = some i := by
  rw [assocLookup_append, h]

/-- Inversion of one successful `resolveList` step. -/
theorem resolveList_cons_some (o : obj.Object) (v : obj.VTNIndex)
    (rest : List obj.VTNIndex) (s : ImportState) (idxs : List ℕ) (s' : ImportState)
    (h : resolveList o (v :: rest) s = some (idxs, s')) :
    ∃ idx s1 idxs1, resolve_index o s v = some (idx, s1) ∧
      resolveList o rest s1 = some (idxs1, s') ∧ idxs = idx :: idxs1 := by
  unfold resolveList at h
  split at h
  · exact absurd h (by simp)
  · next idx s1 hres =>
    split at h
    · exact absurd h (by simp)
    · next idxs1 s2 hrl =>
      rw [Option.some.injEq, Prod.mk.injEq] at h
      exact ⟨idx, s1, idxs1, hres, h.2 ▸ hrl, h.1.symm⟩

/-- A successful `resolveList` run only appends associations. -/
theorem resolveList_extends (o : obj.Object) (cs : List obj.VTNIndex) :
    ∀ s idxs s', resolveList o cs s = some (idxs, s') →
      ∃ tail, s'.vertex_associations = s.vertex_associations ++ tail := by
  induction cs with
  | nil =>
    intro s idxs s' h
    simp only [resolveList, Option.some.injEq, Prod.mk.injEq] at h
    exact ⟨[], h.2 ▸ (List.append_nil _).symm⟩
  | cons v rest ih =>
    intro s idxs s' h
    obtain ⟨idx, s1, idxs1, hres, hrl, rfl⟩ := resolveList_cons_some o v rest s _ s' h
    obtain ⟨tail1, h1⟩ := resolve_index_extends o s v idx s1 hres
    obtain ⟨tail2, h2⟩ := ih s1 idxs1 s' hrl
    exact ⟨tail1 ++ tail2, by rw [h2, h1, List.append_assoc]⟩

/-- Well-formedness survives a `resolveList` run. -/
theorem resolveList_WF (o : obj.Object) (cs : List obj.VTNIndex) :
    ∀ s idxs s', resolveList o cs s = some (idxs, s') → WF s → WF s' := by
  induction cs with
  | nil =>
    intro s idxs s' h hwf
    simp only [resolveList, Option.some.injEq, Prod.mk.injEq] at h
    exact h.2 ▸ hwf
  | cons v rest ih =>
    intro s idxs s' h hwf
    obtain ⟨idx, s1, idxs1, hres, hrl, rfl⟩ := resolveList_cons_some o v rest s _ s' h
    exact ih s1 idxs1 s' hrl (resolve_index_WF o s v idx s1 hres hwf)

/-- Every resolved corner is associated, in the final state, with exactly the
index it resolved to. -/
theorem resolveList_forall2 (o : obj.Object) (cs : List obj.VTNIndex) :
    ∀ s idxs s', resolveList o cs s = some (idxs, s') →
      List.Forall₂ (fun v i => assocLookup s'.vertex_associations v = some i) cs idxs := by
  induction cs with
  | nil =>
    intro s idxs s' h
    simp only [resolveList, Option.some.injEq, Prod.mk.injEq] at h
    exact h.1 ▸ List.Forall₂.nil
  | cons v rest ih =>
    intro s idxs s' h
    obtain ⟨idx, s1, idxs1, hres, hrl, rfl⟩ := resolveList_cons_some o v rest s _ s' h
    refine List.Forall₂.cons ?_ (ih s1 idxs1 s' hrl)
    obtain ⟨tail, htail⟩ := resolveList_extends o rest s1 idxs1 s' hrl
    rw [htail]
    exact assocLookup_append_some _ _ _ _ (resolve_index_lookup_self o s v idx s1 hres)

/-- Splitting a `resolveList` run at a list append. -/
theorem resolveList_append_some (o : obj.Object) (l1 : List obj.VTNIndex) :
    ∀ l2 s idxs s', resolveList o (l1 ++ l2) s = some (idxs, s') →
      ∃ idxs1 s1 idxs2, resolveList o l1 s = some (idxs1, s1) ∧
        resolveList o l2 s1 = some (idxs2, s') ∧ idxs = idxs1 ++ idxs2 := by
  induction l1 with
  | nil => exact fun l2 s idxs s' h => ⟨[], s, idxs, rfl, h, rfl⟩
  | cons v rest ih =>
    intro l2 s idxs s' h
    rw [List.cons_append] at h
    obtain ⟨idx, s1, idxs1, hres, hrl, rfl⟩ :=
      resolveList_cons_some o v (rest ++ l2) s _ s' h
    obtain ⟨idxsA, sA, idxsB, hA, hB, rfl⟩ := ih l2 s1 idxs1 s' hrl
    refine ⟨idx :: idxsA, sA, idxsB, ?_, hB, rfl⟩
    simp [resolveList, hres, hA]

/-- The keys associated after a run are the keys before plus the processed
corners. -/
theorem resolveList_keys (o : obj.Object) (cs : List obj.VTNIndex) :
    ∀ s idxs s', resolveList o cs s = some (idxs, s') →
      ∀ k, k ∈ s'.vertex_associations.map Prod.fst ↔
        (k ∈ s.vertex_associations.map Prod.fst ∨ k ∈ cs) := by
  induction cs with
  | nil =>
    intro s idxs s' h k
    simp only [resolveList, Option.some.injEq, Prod.mk.injEq] at h
    rw [← h.2]
    simp
  | cons v rest ih =>
    intro s idxs s' h k
    obtain ⟨idx, s1, idxs1, hres, hrl, rfl⟩ := resolveList_cons_some o v rest s _ s' h
    rw [ih s1 idxs1 s' hrl k]
    rcases resolve_index_some_cases o s v idx s1 hres with ⟨hit, heq⟩ | ⟨hmiss, _, _, ha, _⟩
    · rw [heq]
      have hv : v ∈ s.vertex_associations.map Prod.fst := by
        by_contra hc
        rw [← assocLookup_eq_none_iff] at hc
        rw [hc] at hit
        exact absurd hit (by simp)
      simp only [List.mem_cons]
      constructor
      · exact fun h1 => h1.elim Or.inl (fun h2 => Or.inr (Or.inr h2))
      · rintro (h1 | rfl | h2)
        · exact Or.inl h1
        · exact Or.inl hv
        · exact Or.inr h2
    · rw [ha, List.map_append]
      simp only [List.mem_append, List.mem_cons, List.map_cons, List.map_nil]
      constructor
      · rintro ((h1 | h2) | h3)
        · exact Or.inl h1
        · simp at h2
          exact Or.inr (Or.inl h2)
        · exact Or.inr (Or.inr h3)
      · rintro (h1 | rfl | h3)
        · exact Or.inl (Or.inl h1)
        · exact Or.inl (Or.inr (by simp))
        · exact Or.inr h3

end Cemconv

namespace Cemconv

/-- The empty import state is well-formed. -/
theorem WF_init : WF ⟨[], []⟩ :=
  ⟨rfl, List.nodup_nil⟩

/-- The primitive loop performs exactly the corner resolutions of the
flattened corner sequence, in order, reaching the same final state. -/
theorem importPrimitives_resolveList (o : obj.Object) (ps : List obj.Primitive) :
    ∀ tris s tris' s', importPrimitives o ps tris s = some (tris', s') →
      ∃ idxs, resolveList o (ps.flatMap triCorners) s = some (idxs, s') := by
  induction ps with
  | nil =>
    intro tris s tris' s' h
    simp only [importPrimitives, Option.some.injEq, Prod.mk.injEq] at h
    exact ⟨[], by simp only [List.flatMap_nil, resolveList, Option.some.injEq,
      Prod.mk.injEq, h.2, and_self]⟩
  | cons p rest ih =>
    intro tris s tris' s' h
    cases p with
    | Triangle a b c =>
      unfold importPrimitives at h
      simp only at h
      split at h
      · exact absurd h (by simp)
      · next i0 s1 h1 =>
        split at h
        · exact absurd h (by simp)
        · next i1 s2 h2 =>
          split at h
          · exact absurd h (by simp)
          · next i2 s3 h3 =>
            obtain ⟨idxs, hidxs⟩ := ih (tris ++ [⟨i0, i1, i2⟩]) s3 tris' s' h
            refine ⟨i0 :: i1 :: i2 :: idxs, ?_⟩
            simp only [triCorners, List.flatMap_cons, List.cons_append, List.nil_append]
            simp [resolveList, h1, h2, h3, hidxs]
    | Line a b =>
      unfold importPrimitives at h
      simp only at h
      obtain ⟨idxs, hidxs⟩ := ih tris s tris' s' h
      exact ⟨idxs, by simpa [triCorners] using hidxs⟩
    | Point a =>
      unfold importPrimitives at h
      simp only at h
      obtain ⟨idxs, hidxs⟩ := ih tris s tris' s' h
      exact ⟨idxs, by simpa [triCorners] using hidxs⟩

/-- Invariant of the primitive loop: well-formedness propagates and every
triangle index stored so far stays within the growing unified vertex list. -/
theorem importPrimitives_bounds (o : obj.Object) (ps : List obj.Primitive) :
    ∀ tris s tris' s', importPrimitives o ps tris s = some (tris', s') → WF s →
      (∀ t ∈ tris, t.t0 < s.vertices.length ∧ t.t1 < s.vertices.length ∧
        t.t2 < s.vertices.length) →
      ∀ t ∈ tris', t.t0 < s'.vertices.length ∧ t.t1 < s'.vertices.length ∧
        t.t2 < s'.vertices.length := by
  induction ps with
  | nil =>
    intro tris s tris' s' h hwf hb
    simp only [importPrimitives, Option.some.injEq, Prod.mk.injEq] at h
    rw [← h.1, ← h.2]
    exact hb
  | cons p rest ih =>
    intro tris s tris' s' h hwf hb
    cases p with
    | Triangle a b c =>
      unfold importPrimitives at h
      simp only at h
      split at h
      · exact absurd h (by simp)
      · next i0 s1 h1 =>
        split at h
        · exact absurd h (by simp)
        · next i1 s2 h2 =>
          split at h
          · exact absurd h (by simp)
          · next i2 s3 h3 =>
            have hwf1 := resolve_index_WF o s a i0 s1 h1 hwf
            have hwf2 := resolve_index_WF o s1 b i1 s2 h2 hwf1
            have hwf3 := resolve_index_WF o s2 c i2 s3 h3 hwf2
            have m1 := resolve_index_vertices_mono o s a i0 s1 h1
            have m2 := resolve_index_vertices_mono o s1 b i1 s2 h2
            have m3 := resolve_index_vertices_mono o s2 c i2 s3 h3
            refine ih (tris ++ [⟨i0, i1, i2⟩]) s3 tris' s' h hwf3 ?_
            intro t ht
            rcases List.mem_append.mp ht with hold | hnew
            · obtain ⟨b0, b1, b2⟩ := hb t hold
              exact ⟨lt_of_lt_of_le b0 (le_trans m1 (le_trans m2 m3)),
                     lt_of_lt_of_le b1 (le_trans m1 (le_trans m2 m3)),
                     lt_of_lt_of_le b2 (le_trans m1 (le_trans m2 m3))⟩
            · rw [List.mem_singleton] at hnew
              subst hnew
              exact ⟨lt_of_lt_of_le (resolve_index_idx_lt o s a i0 s1 h1 hwf)
                       (le_trans m2 m3),
                     lt_of_lt_of_le (resolve_index_idx_lt o s1 b i1 s2 h2 hwf1) m3,
                     resolve_index_idx_lt o s2 c i2 s3 h3 hwf2⟩
    | Line a b =>
      unfold importPrimitives at h
      simp only at h
      exact ih tris s tris' s' h hwf hb
    | Point a =>
      unfold importPrimitives at h
      simp only at h
      exact ih tris s tris' s' h hwf hb

end Cemconv

namespace Cemconv

/-- C10: whenever the importer succeeds, every one of the three unified vertex
indices of every triangle in the produced model's single LOD triangle list is
strictly less than the length of the single frame's unified vertex list, so an
imported model always satisfies the exporter's data-integrity assumption. -/
theorem c10_imported_indices_in_range (o : obj.Object) (m : V2)
    (h : obj_to_cem o = some m) :
    ∃ tris fr, m.lod_levels = [tris] ∧ m.frames = [fr] ∧
      ∀ t ∈ tris, t.t0 < fr.vertices.length ∧ t.t1 < fr.vertices.length ∧
        t.t2 < fr.vertices.length := by
  unfold obj_to_cem at h
  split at h
  · exact absurd h (by simp)
  · next triangles s heq =>
    split at h
    · exact absurd h (by simp)
    · next t0 ht0 =>
      injection h with h
      subst h
      refine ⟨triangles, _, rfl, rfl, ?_⟩
      intro t ht
      exact importPrimitives_bounds o (primitivesOf o) [] ⟨[], []⟩ triangles s heq
        WF_init (by simp) t ht

end Cemconv

namespace Cemconv

/-- Closed witness for C10 at a two-triangle object sharing two corners. -/
theorem c10_witness :
    ∃ m, obj_to_cem
        { vertices := [⟨0, 0, 0⟩, ⟨1, 0, 0⟩, ⟨0, 1, 0⟩, ⟨1, 1, 0⟩],
          tex_vertices := [], normals := [],
          geometry :=
            [⟨[⟨obj.Primitive.Triangle ⟨0, none, none⟩ ⟨1, none, none⟩ ⟨2, none, none⟩⟩,
               ⟨obj.Primitive.Triangle ⟨1, none, none⟩ ⟨3, none, none⟩ ⟨2, none, none⟩⟩]⟩] } =
        some m ∧
      ∃ tris fr, m.lod_levels = [tris] ∧ m.frames = [fr] ∧
        ∀ t ∈ tris, t.t0 < fr.vertices.length ∧ t.t1 < fr.vertices.length ∧
          t.t2 < fr.vertices.length :=
  ⟨_, rfl, c10_imported_indices_in_range
    { vertices := [⟨0, 0, 0⟩, ⟨1, 0, 0⟩, ⟨0, 1, 0⟩, ⟨1, 1, 0⟩],
      tex_vertices := [], normals := [],
      geometry :=
        [⟨[⟨obj.Primitive.Triangle ⟨0, none, none⟩ ⟨1, none, none⟩ ⟨2, none, none⟩⟩,
           ⟨obj.Primitive.Triangle ⟨1, none, none⟩ ⟨3, none, none⟩ ⟨2, none, none⟩⟩]⟩] }
    _ rfl⟩

end Cemconv

namespace Cemconv

/-- C2: on every successfully imported text-mesh input, the corner resolution
sequence (one `resolve_index` call per triangle corner, in encounter order)
assigns two corners the same unified vertex index exactly when their full
(position, texture, normal) reference tuples are identical, and a tuple seen
for the first time at position i receives the index equal to the number of
distinct tuples encountered before it — indices are handed out in
first-encounter (insertion) order. -/
theorem c2_corner_dedup (o : obj.Object) (m : V2) (h : obj_to_cem o = some m) :
    ∃ idxs s, resolveList o (corners o) ⟨[], []⟩ = some (idxs, s) ∧
      idxs.length = (corners o).length ∧
      (∀ i j, i < (corners o).length → j < (corners o).length →
        ((corners o)[i]? = (corners o)[j]? ↔ idxs[i]? = idxs[j]?)) ∧
      (∀ i v, (corners o)[i]? = some v → v ∉ (corners o).take i →
        idxs[i]? = some ((corners o).take i).dedup.length) := by
  unfold obj_to_cem at h
  split at h
  · exact absurd h (by simp)
  · next triangles s heq =>
    obtain ⟨idxs, hrl0⟩ :=
      importPrimitives_resolveList o (primitivesOf o) [] ⟨[], []⟩ triangles s heq
    have hrl : resolveList o (corners o) ⟨[], []⟩ = some (idxs, s) := hrl0
    have hwf : WF s := resolveList_WF o (corners o) ⟨[], []⟩ idxs s hrl WF_init
    have hF := resolveList_forall2 o (corners o) ⟨[], []⟩ idxs s hrl
    rw [List.forall₂_iff_get] at hF
    obtain ⟨hlen, hget⟩ := hF
    refine ⟨idxs, s, hrl, hlen.symm, ?_, ?_⟩
    · intro i j hi hj
      have hi2 : i < idxs.length := hlen ▸ hi
      have hj2 : j < idxs.length := hlen ▸ hj
      have hgi := hget i hi hi2
      have hgj := hget j hj hj2
      simp only [List.get_eq_getElem] at hgi hgj
      rw [List.getElem?_eq_getElem hi, List.getElem?_eq_getElem hj,
          List.getElem?_eq_getElem hi2, List.getElem?_eq_getElem hj2,
          Option.some_inj, Option.some_inj]
      constructor
      · intro hcs
        rw [hcs] at hgi
        rw [hgi] at hgj
        exact Option.some_inj.mp hgj
      · intro hidx
        have hgi2 : assocLookup s.vertex_associations ((corners o)[i]) =
            some (idxs[j]) := by
          rw [hgi, hidx]
        exact assocLookup_inj s.vertex_associations
          (by rw [hwf.1]; exact List.nodup_range _) _ _ _ hgi2 hgj
    · intro i v hv hnot
      have hi : i < (corners o).length := by
        by_contra hc
        push_neg at hc
        rw [List.getElem?_eq_none hc] at hv
        exact absurd hv (by simp)
      have hcsv : (corners o)[i] = v := by
        rw [List.getElem?_eq_getElem hi] at hv
        exact Option.some_inj.mp hv
      have hsplit := hrl
      rw [← List.take_append_drop i (corners o)] at hsplit
      obtain ⟨idxs1, s1, idxs2, hA, hB, hcat⟩ :=
        resolveList_append_some o ((corners o).take i) ((corners o).drop i)
          ⟨[], []⟩ idxs s hsplit
      rw [List.drop_eq_getElem_cons hi, hcsv] at hB
      obtain ⟨idx, s2, idxs3, hres, hrest, hcons⟩ :=
        resolveList_cons_some o v ((corners o).drop (i + 1)) s1 idxs2 s hB
      have hkeys := resolveList_keys o ((corners o).take i) ⟨[], []⟩ idxs1 s1 hA
      have hmiss : assocLookup s1.vertex_associations v = none := by
        rw [assocLookup_eq_none_iff]
        intro hmem
        rcases (hkeys v).mp hmem with h1 | h2
        · simp at h1
        · exact hnot h2
      rcases resolve_index_some_cases o s1 v idx s2 hres with ⟨hit, _⟩ | ⟨_, hidx, _, _, _⟩
      · rw [hmiss] at hit
        exact absurd hit (by simp)
      · have hwf1 : WF s1 :=
          resolveList_WF o ((corners o).take i) ⟨[], []⟩ idxs1 s1 hA WF_init
        have hlen1 : s1.vertex_associations.length = s1.vertices.length := by
          have hc := congrArg List.length hwf1.1
          simpa using hc
        have hperm : (s1.vertex_associations.map Prod.fst).Perm
            ((corners o).take i).dedup := by
          rw [List.perm_ext_iff_of_nodup hwf1.2 (List.nodup_dedup _)]
          intro k
          rw [List.mem_dedup, hkeys k]
          simp
        have hcount : s1.vertices.length = ((corners o).take i).dedup.length := by
          have hm := hperm.length_eq
          rw [List.length_map] at hm
          omega
        have hlen_idxs1 : idxs1.length = i := by
          have h2 := (resolveList_forall2 o ((corners o).take i) ⟨[], []⟩
            idxs1 s1 hA).length_eq
          rw [List.length_take] at h2
          omega
        rw [hcat, hcons, List.getElem?_append_right hlen_idxs1.le, hlen_idxs1,
            Nat.sub_self, List.getElem?_cons_zero, hidx, hcount]

end Cemconv

namespace Cemconv

/-- Closed witness for C2 at the one-triangle object whose three corners share
one reference tuple. -/
theorem c2_witness :
    ∃ m, obj_to_cem (singleTriangleObject 1 2 3 4 5 6) = some m ∧
      ∃ idxs s,
        resolveList (singleTriangleObject 1 2 3 4 5 6)
          (corners (singleTriangleObject 1 2 3 4 5 6)) ⟨[], []⟩ = some (idxs, s) ∧
        idxs.length = (corners (singleTriangleObject 1 2 3 4 5 6)).length ∧
        (∀ i j, i < (corners (singleTriangleObject 1 2 3 4 5 6)).length →
          j < (corners (singleTriangleObject 1 2 3 4 5 6)).length →
          ((corners (singleTriangleObject 1 2 3 4 5 6))[i]? =
              (corners (singleTriangleObject 1 2 3 4 5 6))[j]? ↔
            idxs[i]? = idxs[j]?)) ∧
        (∀ i v, (corners (singleTriangleObject 1 2 3 4 5 6))[i]? = some v →
          v ∉ (corners (singleTriangleObject 1 2 3 4 5 6)).take i →
          idxs[i]? =
            some ((corners (singleTriangleObject 1 2 3 4 5 6)).take i).dedup.length) :=
  ⟨_, rfl, c2_corner_dedup (singleTriangleObject 1 2 3 4 5 6) _ rfl⟩

end Cemconv

namespace Cemconv

/-- A successful face loop produces exactly one face line per iteration index,
with all nine slots computed from the selected triangle. -/
theorem faceLoop_some (td : List Tri) (vo off : ℕ) :
    ∀ ks ls, faceLoop td vo off ks = some ls →
      ls = ks.map (fun k =>
        ObjLine.f (vo + (td.getD (k + off) ⟨0, 0, 0⟩).t0 + 1)
          (vo + (td.getD (k + off) ⟨0, 0, 0⟩).t0 + 1)
          (vo + (td.getD (k + off) ⟨0, 0, 0⟩).t0 + 1)
          (vo + (td.getD (k + off) ⟨0, 0, 0⟩).t1 + 1)
          (vo + (td.getD (k + off) ⟨0, 0, 0⟩).t1 + 1)
          (vo + (td.getD (k + off) ⟨0, 0, 0⟩).t1 + 1)
          (vo + (td.getD (k + off) ⟨0, 0, 0⟩).t2 + 1)
          (vo + (td.getD (k + off) ⟨0, 0, 0⟩).t2 + 1)
          (vo + (td.getD (k + off) ⟨0, 0, 0⟩).t2 + 1)) := by
  intro ks
  induction ks with
  | nil =>
    intro ls h
    simp only [faceLoop, Option.some.injEq] at h
    rw [← h]
    rfl
  | cons k rest ih =>
    intro ls h
    unfold faceLoop at h
    split at h
    · exact absurd h (by simp)
    · next t ht =>
      split at h
      · exact absurd h (by simp)
      · next ls2 hls2 =>
        injection h with h
        subst h
        rw [List.map_cons, ih ls2 hls2, List.getD_eq_getElem?_getD, ht, Option.getD_some]

/-- A successful material loop produces exactly the claimed face section. -/
theorem materialsLoop_some (td : List Tri) :
    ∀ ms ls, materialsLoop td ms = some ls → ls = faceSectionSpec td ms := by
  intro ms
  induction ms with
  | nil =>
    intro ls h
    simp only [materialsLoop, Option.some.injEq] at h
    rw [← h]
    rfl
  | cons m rest ih =>
    intro ls h
    unfold materialsLoop at h
    split at h
    · exact absurd h (by simp)
    · next sl hsl =>
      split at h
      · exact absurd h (by simp)
      · next faces hfaces =>
        split at h
        · exact absurd h (by simp)
        · next ls2 hls2 =>
          injection h with h
          subst h
          have hsl2 : m.triangles.headD ⟨0, 0⟩ = sl := by
            rw [List.headD_eq_head?_getD, List.head?_eq_getElem?, hsl, Option.getD_some]
          simp only [faceSectionSpec]
          rw [ih ls2 hls2, faceLoop_some td m.vertex_offset sl.offset _ faces hfaces, hsl2,
            List.cons_append]

/-- C5: whenever the exporter succeeds on a binary model, its output after the
vertex lines is, for every material in list order, a comment line followed by
one face line per triangle of the material's first triangle-range selection
only (later selections are not exported), each face index equal to the
material's vertex-range offset plus the triangle's unified vertex index plus
one, repeated three times in the a/a/a slash form. -/
theorem c5_material_face_lines (cem : V2) (td : List Tri) (fr : v2.Frame)
    (out : List ObjLine)
    (h0 : cem.lod_levels[0]? = some td) (h1 : cem.frames[0]? = some fr)
    (h : cem2_to_obj cem = some out) :
    out = fr.vertices.flatMap vertexLines ++ faceSectionSpec td cem.materials := by
  unfold cem2_to_obj at h
  split at h
  · exact absurd h (by simp)
  · next td2 htd2 =>
    rw [h0] at htd2
    injection htd2 with htd2
    subst htd2
    split at h
    · exact absurd h (by simp)
    · next fr2 hfr2 =>
      rw [h1] at hfr2
      injection hfr2 with hfr2
      subst hfr2
      split at h
      · exact absurd h (by simp)
      · next fs hfs =>
        injection h with h
        rw [← h, materialsLoop_some td cem.materials fs hfs]

/-- Closed witness for C5: a model whose single material carries two
selections; the output contains the vertex lines, the comment, then exactly
the one face line of the first selection. -/
theorem c5_witness :
    ∃ out, cem2_to_obj c5model = some out ∧
      out = c5frame.vertices.flatMap vertexLines ++ faceSectionSpec c5lod c5model.materials :=
  ⟨_, rfl, c5_material_face_lines c5model c5lod c5frame _ rfl rfl rfl⟩

/-- C9: the exporter reads only the first LOD level, the first frame and the
material list — two models agreeing there export identically — and, when it
succeeds, its output starts with exactly one position line, one normal line
and one texture line per unified vertex of frame 0, in vertex-list order, with
the inverse Y/Z axis swap applied to position and normal. -/
theorem c9_exporter_first_lod_frame (cem cem2 : V2)
    (hm : cem2.materials = cem.materials)
    (hl : cem2.lod_levels[0]? = cem.lod_levels[0]?)
    (hf : cem2.frames[0]? = cem.frames[0]?) :
    cem2_to_obj cem2 = cem2_to_obj cem ∧
    (∀ fr out, cem.frames[0]? = some fr → cem2_to_obj cem = some out →
      ∃ faceSection,
        out = fr.vertices.flatMap (fun v =>
          [ObjLine.v v.position.p0 v.position.p2 v.position.p1,
           ObjLine.vn v.normal.p0 v.normal.p2 v.normal.p1,
           ObjLine.vt v.texture.p0 v.texture.p1]) ++ faceSection) := by
  constructor
  · unfold cem2_to_obj
    rw [hm, hl, hf]
  · intro fr out hfr hout
    unfold cem2_to_obj at hout
    split at hout
    · exact absurd hout (by simp)
    · next td htd =>
      split at hout
      · exact absurd hout (by simp)
      · next fr2 hfr2 =>
        rw [hfr] at hfr2
        injection hfr2 with hfr2
        subst hfr2
        split at hout
        · exact absurd hout (by simp)
        · next fs hfs =>
          injection hout with hout
          exact ⟨fs, by rw [← hout]; rfl⟩

/-- Closed witness for C9: the variant model with an extra LOD level, extra
frame, different center and a tag point exports identically to the base model,
whose output starts with the six per-vertex lines of its two frame vertices. -/
theorem c9_witness :
    cem2_to_obj c9variant = cem2_to_obj c9base ∧
    (∀ fr out, c9base.frames[0]? = some fr → cem2_to_obj c9base = some out →
      ∃ faceSection,
        out = fr.vertices.flatMap (fun v =>
          [ObjLine.v v.position.p0 v.position.p2 v.position.p1,
           ObjLine.vn v.normal.p0 v.normal.p2 v.normal.p1,
           ObjLine.vt v.texture.p0 v.texture.p1]) ++ faceSection) :=
  c9_exporter_first_lod_frame c9base c9variant rfl rfl rfl

end Cemconv
